import Mathlib

/-!
Verification of the diff-parsing and prompt-construction core of the
AI pull-request reviewer (files `app/utils/diff_parser.py` and
`app/utils/prompt_formatter.py`).

The Python code is embedded shallowly:
  * Python dicts produced by `parse_diff` always carry the keys
    `old_path`, `new_path`, `changes`, `additions`, `deletions`, so a
    `FileChange` structure models them; hunk dicts become `Hunk`, and the
    hunk-header info dict (either empty or with all four fields) becomes
    `Option HunkInfo` (`none` models the empty dict).
  * The two regular expressions are embedded as explicit character-list
    matchers with the same leftmost-search and greedy-group semantics
    (`\d` is modelled as an ASCII digit).
  * The mutable `current_file` accumulator aliases: when a line starts with
    `diff --git` but does not match the two-path pattern, the accumulator is
    appended to `files` yet stays current, so the appended dict is mutated by
    later lines and appended again at the next flush.  The state therefore
    carries `aliasCount`, the number of times the current accumulator has
    already been appended; pending copies (all adjacent, at the tail of the
    list) materialise with the accumulator's final value at flush time.
-/

inductive LineType where
  | addition
  | deletion
  | context
deriving DecidableEq, Repr

structure DiffLine where
  type : LineType
  content : String
deriving DecidableEq, Repr

structure HunkInfo where
  old_start : Nat
  old_count : Nat
  new_start : Nat
  new_count : Nat
deriving DecidableEq, Repr

structure Hunk where
  info : Option HunkInfo
  lines : List DiffLine
deriving DecidableEq, Repr

structure FileChange where
  old_path : String
  new_path : String
  changes : List Hunk
  additions : Nat
  deletions : Nat
deriving DecidableEq, Repr

namespace DiffParser

/-- Python `"...".split('\n')`: always at least one (possibly empty) part. -/
def splitNl : List Char → List (List Char)
  | [] => [[]]
  | c :: cs =>
    if c = '\n' then [] :: splitNl cs
    else
      match splitNl cs with
      | [] => [[c]]
      | l :: ls => (c :: l) :: ls

/-- Maximal run of ASCII digits (regex `\d*`), with the rest of the input. -/
def readDigits : List Char → List Char × List Char
  | [] => ([], [])
  | c :: cs =>
    if c.isDigit then
      let p := readDigits cs
      (c :: p.1, p.2)
    else ([], c :: cs)

/-- Python `int` on a digit string. -/
def natOfDigits (ds : List Char) : Nat :=
  ds.foldl (fun n c => 10 * n + (c.toNat - 48)) 0

/-- Matches `(\d+),?(\d*)` with the source's defaulting
`int(group) if group else 1`: returns start value, (defaulted) count value
and the rest of the input.  Backtracking never helps this pattern beyond the
greedy attempt, so the deterministic reading is faithful. -/
def matchNumPair2 (cs : List Char) : Option (Nat × Nat × List Char) :=
  let p1 := readDigits cs
  if p1.1.isEmpty then none
  else
    match p1.2 with
    | ',' :: r2 =>
      let p2 := readDigits r2
      some (natOfDigits p1.1, if p2.1.isEmpty then 1 else natOfDigits p2.1, p2.2)
    | r1 => some (natOfDigits p1.1, 1, r1)

/-- Attempts `@@ -(\d+),?(\d*) \+(\d+),?(\d*) @@` at the head of the input. -/
def matchHunkAt (cs : List Char) : Option HunkInfo :=
  match cs with
  | '@' :: '@' :: ' ' :: '-' :: r0 =>
    match matchNumPair2 r0 with
    | none => none
    | some (os, oc, r1) =>
      match r1 with
      | ' ' :: '+' :: r2 =>
        match matchNumPair2 r2 with
        | none => none
        | some (ns, nc, r3) =>
          match r3 with
          | ' ' :: '@' :: '@' :: _ => some ⟨os, oc, ns, nc⟩
          | _ => none
      | _ => none
  | _ => none

/-- `re.search` for the hunk-header pattern: leftmost position wins. -/
def searchHunk : List Char → Option HunkInfo
  | [] => none
  | c :: cs =>
    match matchHunkAt (c :: cs) with
    | some i => some i
    | none => searchHunk cs

/-- `DiffParser._parse_hunk_header`: `re.search` of the hunk-header regex;
`none` models the empty dict returned on failure. -/
def _parse_hunk_header (line : String) : Option HunkInfo :=
  searchHunk line.data

/-- The literal `diff --git a/` at the head of the input (start of the
file-marker regex), with the rest of the input. -/
def gitMarkerRest : List Char → Option (List Char)
  | 'd' :: 'i' :: 'f' :: 'f' :: ' ' :: '-' :: '-' :: 'g' :: 'i' :: 't' :: ' ' :: 'a' :: '/' :: rest => some rest
  | _ => none

/-- Splits at the last occurrence of ` b/` (the greedy `(.*) b/(.*)` groups). -/
def splitLastB : List Char → Option (List Char × List Char)
  | [] => none
  | c :: cs =>
    match splitLastB cs with
    | some (pre, post) => some (c :: pre, post)
    | none =>
      match c :: cs with
      | ' ' :: 'b' :: '/' :: post => some ([], post)
      | _ => none

/-- `re.search(r'diff --git a/(.*) b/(.*)', line)`: leftmost start of the
literal prefix after which ` b/` still occurs; group 1 is greedy, so it
extends to the last ` b/`. -/
def matchGitMarker : List Char → Option (String × String)
  | [] => none
  | c :: cs =>
    match gitMarkerRest (c :: cs) with
    | some rest =>
      match splitLastB rest with
      | some (g1, g2) => some (String.mk g1, String.mk g2)
      | none => matchGitMarker cs
    | none => matchGitMarker cs

def startsDiffGit : List Char → Bool
  | 'd' :: 'i' :: 'f' :: 'f' :: ' ' :: '-' :: '-' :: 'g' :: 'i' :: 't' :: _ => true
  | _ => false

def startsPlus3 : List Char → Bool
  | '+' :: '+' :: '+' :: _ => true
  | _ => false

def startsMinus3 : List Char → Bool
  | '-' :: '-' :: '-' :: _ => true
  | _ => false

def startsAtAt : List Char → Bool
  | '@' :: '@' :: _ => true
  | _ => false

/-- `current_file['changes'][-1]['lines'].append(dl)`. -/
def appendToLastHunk (hunks : List Hunk) (dl : DiffLine) : List Hunk :=
  match hunks with
  | [] => []
  | [h] => [{ h with lines := h.lines ++ [dl] }]
  | h :: hs => h :: appendToLastHunk hs dl

/-- Parser state: finished files, the number of times the current accumulator
has already been appended to `files` (Python list aliasing), and the current
accumulator itself. -/
structure ParseState where
  files : List FileChange
  aliasCount : Nat
  current : Option FileChange
deriving DecidableEq, Repr

/-- Materialises the pending appends of the current accumulator plus the one
performed at a flush point (`files.append(current_file)`). -/
def flushCurrent (st : ParseState) : List FileChange :=
  st.files ++
    (match st.current with
     | some f => List.replicate (st.aliasCount + 1) f
     | none => [])

/-- One iteration of the `for line in lines` loop of `parse_diff`. -/
def processLine (st : ParseState) (line : List Char) : ParseState :=
  if startsDiffGit line then
    match matchGitMarker line with
    | some (g1, g2) => ⟨flushCurrent st, 0, some ⟨g1, g2, [], 0, 0⟩⟩
    | none =>
      ⟨st.files, if st.current.isSome then st.aliasCount + 1 else st.aliasCount, st.current⟩
  else if startsPlus3 line || startsMinus3 line then st
  else if startsAtAt line then
    match st.current with
    | some f =>
      ⟨st.files, st.aliasCount, some { f with changes := f.changes ++ [⟨searchHunk line, []⟩] }⟩
    | none => st
  else
    match st.current with
    | some f =>
      if f.changes.isEmpty then st
      else
        match line with
        | '+' :: rest =>
          ⟨st.files, st.aliasCount,
            some { f with changes := appendToLastHunk f.changes ⟨LineType.addition, String.mk rest⟩,
                          additions := f.additions + 1 }⟩
        | '-' :: rest =>
          ⟨st.files, st.aliasCount,
            some { f with changes := appendToLastHunk f.changes ⟨LineType.deletion, String.mk rest⟩,
                          deletions := f.deletions + 1 }⟩
        | ' ' :: rest =>
          ⟨st.files, st.aliasCount,
            some { f with changes := appendToLastHunk f.changes ⟨LineType.context, String.mk rest⟩ }⟩
        | _ => st
    | none => st

/-- `DiffParser.parse_diff`. -/
def parse_diff (diff_content : String) : List FileChange :=
  flushCurrent ((splitNl diff_content.data).foldl processLine ⟨[], 0, none⟩)

/-- The suffix after the last `'.'` (`path.split('.')[-1]`, given `'.' in path`). -/
def afterLastDot (cs : List Char) : List Char :=
  ((cs.reverse.takeWhile (fun c => decide (c ≠ '.'))).reverse)

/-- Set insertion, modelled as an insertion-ordered duplicate-free list
(the Python code accumulates into a `set` and returns `list(set)`; only the
membership structure of the result is specified). -/
def insertIfAbsent (l : List String) (s : String) : List String :=
  if s ∈ l then l else l ++ [s]

/-- The path `parse_diff` outputs are keyed by:
`file.get('new_path', file.get('old_path', ''))`.  Every dict built by
`parse_diff` carries the key `new_path`, so the `old_path` fallback of
`dict.get` never fires and the selected path is always `new_path`. -/
def selectedPath (f : FileChange) : String :=
  f.new_path

/-- `DiffParser.get_file_extensions`. -/
def get_file_extensions (files : List FileChange) : List String :=
  files.foldl
    (fun exts f =>
      if '.' ∈ (selectedPath f).data then
        insertIfAbsent exts (String.mk ((afterLastDot (selectedPath f).data).map Char.toLower))
      else exts)
    []

/-- `DiffParser.get_total_changes`. -/
def get_total_changes (files : List FileChange) : Nat × Nat :=
  (files.foldl (fun acc f => acc + f.additions) 0,
   files.foldl (fun acc f => acc + f.deletions) 0)

/-- `DiffParser.filter_significant_changes` (the source's default threshold
is 5). -/
def filter_significant_changes (files : List FileChange) (min_changes : Nat := 5) : List FileChange :=
  files.filter (fun f => decide (min_changes ≤ f.additions + f.deletions))

structure HunkContext where
  hunk_info : Option HunkInfo
  relevant_lines : List DiffLine
deriving DecidableEq, Repr

/-- The slice `lines[max(0, i - context_lines) : min(len(lines), i + context_lines + 1)]`
(truncated subtraction supplies the `max(0, ...)`). -/
def changeWindow (lines : List DiffLine) (context_lines i : Nat) : List DiffLine :=
  (lines.drop (i - context_lines)).take (min lines.length (i + context_lines + 1) - (i - context_lines))

/-- The inner loop of `extract_context_lines`: for every addition/deletion
line, its context window is appended to the hunk's relevant lines. -/
def relevant_for_hunk (lines : List DiffLine) (context_lines : Nat) : List DiffLine :=
  lines.enum.foldl
    (fun acc p =>
      if p.2.type = LineType.addition ∨ p.2.type = LineType.deletion then
        acc ++ changeWindow lines context_lines p.1
      else acc)
    []

/-- The per-file loop body of `extract_context_lines`: hunks contribute only
when their relevant-lines list is non-empty. -/
def file_hunk_contexts (f : FileChange) (context_lines : Nat) : List HunkContext :=
  f.changes.foldl
    (fun acc h =>
      let rel := relevant_for_hunk h.lines context_lines
      if rel.isEmpty then acc else acc ++ [⟨h.info, rel⟩])
    []

/-- `context_data[k] = v` on a Python dict modelled as an insertion-ordered
association list: an existing key keeps its position, a new key is appended. -/
def setKey (m : List (String × List HunkContext)) (k : String) (v : List HunkContext) :
    List (String × List HunkContext) :=
  if m.any (fun p => p.1 == k) then m.map (fun p => if p.1 == k then (k, v) else p)
  else m ++ [(k, v)]

/-- `DiffParser.extract_context_lines` (the source's default context is 3).
The dict entry for a file is created (`= []`) and then filled within the same
iteration, so a single assignment of the final value is equivalent. -/
def extract_context_lines (files : List FileChange) (context_lines : Nat := 3) :
    List (String × List HunkContext) :=
  files.foldl (fun cd f => setKey cd (selectedPath f) (file_hunk_contexts f context_lines)) []

end DiffParser

/-- Bool-valued substring test (used to state "the document contains ..."). -/
def hasSub (needle : List Char) : List Char → Bool
  | [] => needle.isPrefixOf []
  | c :: cs => needle.isPrefixOf (c :: cs) || hasSub needle cs

namespace PromptFormatter

/-! The fixed fragments of the f-string template of
`PromptFormatter.create_code_review_prompt`, in source order; the rendered
prompt interleaves them with the seven interpolated values.  Literal braces
produced by the source's doubled braces are written with their escapes. -/

def crpPart1 : String :=
  "\n# Code Review Request\n\n## Pull Request Information\n**Title:** "

def crpPart2 : String :=
  "\n**Description:** "

def crpPart3 : String :=
  "\n\n## Change Summary\n- **Files Modified:** "

def crpPart4 : String :=
  "\n- **Total Additions:** "

def crpPart5 : String :=
  "\n- **Total Deletions:** "

def crpPart6 : String :=
  "\n- **Languages/Extensions:** "

def crpPart7 : String :=
  "\n\n## Code Changes\n```diff\n"

def crpPart8 : String :=
  "\n```\n\n## Review Guidelines\nPlease provide a thorough code review focusing on:\n\n### 1. Code Quality\n- Code style and consistency\n- Best practices for the identified programming languages\n- Code organization and structure\n- Naming conventions\n\n### 2. Functionality & Logic\n- Correctness of the implementation\n- Edge cases and error handling\n- Algorithm efficiency\n- Business logic accuracy\n\n### 3. Security\n- Input validation\n- Authentication/authorization\n- Data sanitization\n- Potential vulnerabilities\n\n### 4. Performance\n- Time complexity considerations\n- Memory usage\n- Database query optimization (if applicable)\n- Caching opportunities\n\n### 5. Maintainability\n- Code readability\n- Documentation and comments\n- Test coverage\n- Modularity and reusability\n\n### 6. Dependencies & Integration\n- New dependencies introduced\n- API compatibility\n- Breaking changes\n- Migration considerations\n\n## Response Format\nPlease structure your response as a JSON object with the following format:\n\n```json\n\x7b\n    \"review_summary\": \"Brief overall assessment (2-3 sentences)\",\n    \"suggestions\": [\n        \"Specific, actionable suggestions for improvement\",\n        \"Focus on the most important issues first\"\n    ],\n    \"severity\": \"low|medium|high\",\n    \"requires_changes\": true/false,\n    \"strengths\": [\n        \"Positive aspects of the code changes\"\n    ],\n    \"risks\": [\n        \"Potential risks or concerns\"\n    ]\n\x7d\n```\n\n## Additional Context\n- Focus on significant issues rather than minor style preferences\n- Provide specific line references when possible\n- Consider the impact on existing codebase\n- Be constructive and educational in your feedback\n"

/-- The effective extension list: `if not file_extensions:` replaces a missing
or empty caller-supplied list by the extensions derived from the diff. -/
def effective_extensions (diff_content : String) (file_extensions : Option (List String)) :
    List String :=
  match file_extensions with
  | none => DiffParser.get_file_extensions (DiffParser.parse_diff diff_content)
  | some l =>
    if l.isEmpty then DiffParser.get_file_extensions (DiffParser.parse_diff diff_content) else l

/-- `PromptFormatter.create_code_review_prompt` (defaults: empty description,
no caller-supplied extension list). -/
def create_code_review_prompt (diff_content pr_title : String)
    (pr_description : String := "") (file_extensions : Option (List String) := none) : String :=
  let files := DiffParser.parse_diff diff_content
  let totals := DiffParser.get_total_changes files
  let exts := effective_extensions diff_content file_extensions
  crpPart1 ++ pr_title ++ crpPart2
    ++ (if pr_description = "" then "No description provided" else pr_description)
    ++ crpPart3 ++ toString files.length
    ++ crpPart4 ++ toString totals.1
    ++ crpPart5 ++ toString totals.2
    ++ crpPart6 ++ (if exts.isEmpty then "Mixed" else String.intercalate ", " exts)
    ++ crpPart7 ++ diff_content ++ crpPart8

end PromptFormatter

/-! ### Derived quantities and helper lemmas -/

/-- Number of lines of kind `t` stored in a hunk. -/
def hunkCount (t : LineType) (h : Hunk) : Nat :=
  h.lines.countP (fun l => decide (l.type = t))

/-- Addition lines summed across all hunks of a file. -/
def fileHunkAdditions (f : FileChange) : Nat :=
  (f.changes.map (hunkCount LineType.addition)).sum

/-- Deletion lines summed across all hunks of a file. -/
def fileHunkDeletions (f : FileChange) : Nat :=
  (f.changes.map (hunkCount LineType.deletion)).sum

/-- The counter invariant of claim C1, per file. -/
def countsOk (f : FileChange) : Prop :=
  f.additions = fileHunkAdditions f ∧ f.deletions = fileHunkDeletions f

/-- The C1 invariant on parser states. -/
def countsInv (st : DiffParser.ParseState) : Prop :=
  (∀ f ∈ st.files, countsOk f) ∧ (∀ f, st.current = some f → countsOk f)

def sampleDiff : String :=
  "diff --git a/x.py b/x.py\n--- a/x.py\n+++ b/x.py\n@@ -1,2 +1,3 @@\n context\n-old line\n+new line\n+added line"

def sampleFile : FileChange :=
  { old_path := "x.py", new_path := "x.py",
    changes := [{ info := some ⟨1, 2, 1, 3⟩,
                  lines := [⟨LineType.context, "context"⟩, ⟨LineType.deletion, "old line"⟩,
                            ⟨LineType.addition, "new line"⟩, ⟨LineType.addition, "added line"⟩] }],
    additions := 2, deletions := 1 }

/-- Claim-side optional count field of a hunk header: absent, or a comma
followed by a digit string. -/
def countPart : Option (List Char) → List Char
  | none => []
  | some ds => ',' :: ds

/-- The count a hunk header denotes: omitted or empty counts default to 1. -/
def countValue : Option (List Char) → Nat
  | none => 1
  | some ds => if ds.isEmpty then 1 else DiffParser.natOfDigits ds

/-- Claim-side canonical hunk-header line `@@ -a,b +c,d @@` with either count
optionally omitted and arbitrary trailing text. -/
def hunkHeaderChars (d1 : List Char) (o2 : Option (List Char)) (d3 : List Char)
    (o4 : Option (List Char)) (rest : List Char) : List Char :=
  '@' :: '@' :: ' ' :: '-' ::
    (d1 ++ (countPart o2 ++ (' ' :: '+' :: (d3 ++ (countPart o4 ++ (' ' :: '@' :: '@' :: rest))))))

/-- A diff whose git marker `diff --git a/a.py b/` yields an empty
`new_path` with a non-empty `old_path`. -/
def emptyNewPathDiff : String :=
  "diff --git a/a.py b/\n@@ -1,1 +1,1 @@\n+x"

/-- Claim-side window of C8: the slice of the hunk's lines from
`max(0, i - contextLines)` inclusive to `min(length, i + contextLines + 1)`
exclusive. -/
def claimWindow (lines : List DiffLine) (context_lines i : Nat) : List DiffLine :=
  (lines.drop (max 0 (i - context_lines))).take
    (min lines.length (i + context_lines + 1) - max 0 (i - context_lines))

/-- Claim-side relevant-lines list of C8: the concatenation, over each
addition/deletion line at index i of the hunk, of its context window
(overlapping windows yield duplicates; nothing is deduplicated). -/
def claimRelevant (lines : List DiffLine) (context_lines : Nat) : List DiffLine :=
  ((lines.enum.filter
      (fun p => decide (p.2.type = LineType.addition ∨ p.2.type = LineType.deletion))).map
    (fun p => claimWindow lines context_lines p.1)).flatten

/-- Claim-side parser of C4: identical to `parse_diff` except that the
current accumulator is appended exactly once — at the next file marker or at
end of input — and is never appended early by a malformed marker line (under
C4's amended hypothesis that branch is unreachable). -/
def processLineOnce (st : List FileChange × Option FileChange) (line : List Char) :
    List FileChange × Option FileChange :=
  if DiffParser.startsDiffGit line then
    match DiffParser.matchGitMarker line with
    | some (g1, g2) =>
      ((match st.2 with | some f => st.1 ++ [f] | none => st.1), some ⟨g1, g2, [], 0, 0⟩)
    | none => st
  else if DiffParser.startsPlus3 line || DiffParser.startsMinus3 line then st
  else if DiffParser.startsAtAt line then
    match st.2 with
    | some f =>
      (st.1, some { f with changes := f.changes ++ [⟨DiffParser.searchHunk line, []⟩] })
    | none => st
  else
    match st.2 with
    | some f =>
      if f.changes.isEmpty then st
      else
        match line with
        | '+' :: rest =>
          (st.1, some { f with
            changes := DiffParser.appendToLastHunk f.changes ⟨LineType.addition, String.mk rest⟩,
            additions := f.additions + 1 })
        | '-' :: rest =>
          (st.1, some { f with
            changes := DiffParser.appendToLastHunk f.changes ⟨LineType.deletion, String.mk rest⟩,
            deletions := f.deletions + 1 })
        | ' ' :: rest =>
          (st.1, some { f with
            changes := DiffParser.appendToLastHunk f.changes ⟨LineType.context, String.mk rest⟩ })
        | _ => st
    | none => st

def parse_diff_once (s : String) : List FileChange :=
  let fin := (DiffParser.splitNl s.data).foldl processLineOnce ([], none)
  match fin.2 with
  | some f => fin.1 ++ [f]
  | none => fin.1

def aliasingDiff : String :=
  "diff --git a/a.py b/b.py\n@@ -1 +1 @@\ndiff --git bad\n+x"


/-! ### Helper lemmas -/

theorem foldl_inv {α σ : Type _} (g : σ → α → σ) (P : σ → Prop)
    (h : ∀ s a, P s → P (g s a)) : ∀ (l : List α) (s : σ), P s → P (l.foldl g s)
  | [], _, hs => hs
  | a :: l, s, hs => foldl_inv g P h l (g s a) (h s a hs)

theorem map_congr_mem {α β : Type _} (f g : α → β) :
    ∀ l : List α, (∀ a ∈ l, f a = g a) → l.map f = l.map g
  | [], _ => rfl
  | a :: l, h => by
    have h1 := h a (List.mem_cons_self a l)
    have h2 := map_congr_mem f g l (fun b hb => h b (List.mem_cons_of_mem a hb))
    simp [h1, h2]

theorem foldl_add_map (g : FileChange → Nat) :
    ∀ (l : List FileChange) (n : Nat), l.foldl (fun a f => a + g f) n = n + (l.map g).sum
  | [], n => by simp
  | f :: l, n => by
    rw [List.foldl_cons, foldl_add_map g l (n + g f)]
    simp [List.sum_cons]
    omega

theorem mem_flushCurrent {st : DiffParser.ParseState} {f : FileChange}
    (hf : f ∈ DiffParser.flushCurrent st) : f ∈ st.files ∨ st.current = some f := by
  unfold DiffParser.flushCurrent at hf
  rcases List.mem_append.1 hf with h | h
  · exact Or.inl h
  · right
    cases hcur : st.current with
    | none => rw [hcur] at h; simp at h
    | some g =>
      rw [hcur] at h
      have hfg : f = g := List.eq_of_mem_replicate h
      subst hfg
      rfl

theorem hunkCount_snoc (t : LineType) (h : Hunk) (dl : DiffLine) :
    hunkCount t { h with lines := h.lines ++ [dl] } =
      hunkCount t h + (if dl.type = t then 1 else 0) := by
  simp [hunkCount, List.countP_append, List.countP_cons]

theorem appendToLastHunk_count : ∀ (hs : List Hunk) (dl : DiffLine) (t : LineType), hs ≠ [] →
    ((DiffParser.appendToLastHunk hs dl).map (hunkCount t)).sum =
      (hs.map (hunkCount t)).sum + (if dl.type = t then 1 else 0)
  | [], _, _, hne => absurd rfl hne
  | [h], dl, t, _ => by
    simp [DiffParser.appendToLastHunk, hunkCount_snoc]
  | h :: h2 :: hs, dl, t, _ => by
    have ih := appendToLastHunk_count (h2 :: hs) dl t (by simp)
    simp only [DiffParser.appendToLastHunk, List.map_cons, List.sum_cons, ih]
    omega

theorem processLine_countsInv (st : DiffParser.ParseState) (line : List Char)
    (h : countsInv st) : countsInv (DiffParser.processLine st line) := by
  obtain ⟨hfiles, hcur⟩ := h
  unfold DiffParser.processLine
  split
  · split
    · refine ⟨?_, ?_⟩
      · intro f hf
        rcases mem_flushCurrent hf with h1 | h1
        · exact hfiles f h1
        · exact hcur f h1
      · intro f hf
        cases hf
        exact ⟨by simp [countsOk, fileHunkAdditions], by simp [countsOk, fileHunkDeletions]⟩
    · exact ⟨hfiles, hcur⟩
  · split
    · exact ⟨hfiles, hcur⟩
    · split
      · split
        · next f heq =>
          refine ⟨hfiles, ?_⟩
          intro g hg
          cases hg
          have hok := hcur f heq
          refine ⟨?_, ?_⟩
          · show f.additions = fileHunkAdditions _
            unfold fileHunkAdditions
            simp [hok.1, fileHunkAdditions, hunkCount]
          · show f.deletions = fileHunkDeletions _
            unfold fileHunkDeletions
            simp [hok.2, fileHunkDeletions, hunkCount]
        · exact ⟨hfiles, hcur⟩
      · split
        · next f heq =>
          have hok := hcur f heq
          split
          · exact ⟨hfiles, hcur⟩
          · next hne =>
            have hne2 : f.changes ≠ [] := by
              intro hx
              rw [hx] at hne
              exact hne rfl
            split
            · refine ⟨hfiles, ?_⟩
              intro g hg
              cases hg
              refine ⟨?_, ?_⟩
              · show f.additions + 1 = fileHunkAdditions _
                rw [hok.1]
                unfold fileHunkAdditions
                rw [appendToLastHunk_count f.changes _ _ hne2]
                simp [fileHunkAdditions]
              · show f.deletions = fileHunkDeletions _
                rw [hok.2]
                unfold fileHunkDeletions
                rw [appendToLastHunk_count f.changes _ _ hne2]
                simp [fileHunkDeletions]
            · refine ⟨hfiles, ?_⟩
              intro g hg
              cases hg
              refine ⟨?_, ?_⟩
              · show f.additions = fileHunkAdditions _
                rw [hok.1]
                unfold fileHunkAdditions
                rw [appendToLastHunk_count f.changes _ _ hne2]
                simp [fileHunkAdditions]
              · show f.deletions + 1 = fileHunkDeletions _
                rw [hok.2]
                unfold fileHunkDeletions
                rw [appendToLastHunk_count f.changes _ _ hne2]
                simp [fileHunkDeletions]
            · refine ⟨hfiles, ?_⟩
              intro g hg
              cases hg
              refine ⟨?_, ?_⟩
              · show f.additions = fileHunkAdditions _
                rw [hok.1]
                unfold fileHunkAdditions
                rw [appendToLastHunk_count f.changes _ _ hne2]
                simp [fileHunkAdditions]
              · show f.deletions = fileHunkDeletions _
                rw [hok.2]
                unfold fileHunkDeletions
                rw [appendToLastHunk_count f.changes _ _ hne2]
                simp [fileHunkDeletions]
            · exact ⟨hfiles, hcur⟩
        · exact ⟨hfiles, hcur⟩

theorem startsPlus3_eq_false {c : Char} (cs : List Char) (h : c ≠ '+') :
    DiffParser.startsPlus3 (c :: cs) = false := by
  unfold DiffParser.startsPlus3
  split
  · next heq => injection heq with h1 _; exact absurd h1 h
  · rfl

theorem startsMinus3_eq_false {c : Char} (cs : List Char) (h : c ≠ '-') :
    DiffParser.startsMinus3 (c :: cs) = false := by
  unfold DiffParser.startsMinus3
  split
  · next heq => injection heq with h1 _; exact absurd h1 h
  · rfl

/-! ### The claims -/

/-- C1: every `FileChange` returned by `parse_diff` has its `additions` field
equal to the number of addition lines and its `deletions` field equal to the
number of deletion lines summed across its hunks (non-negative since the
counters are naturals); consequently `get_total_changes` on the parse result
is exactly the pair of those totals summed over all files. -/
theorem claim_C1 (s : String) :
    (∀ f ∈ DiffParser.parse_diff s,
        f.additions = fileHunkAdditions f ∧ f.deletions = fileHunkDeletions f) ∧
      DiffParser.get_total_changes (DiffParser.parse_diff s) =
        (((DiffParser.parse_diff s).map fileHunkAdditions).sum,
         ((DiffParser.parse_diff s).map fileHunkDeletions).sum) := by
  have hinv : countsInv ((DiffParser.splitNl s.data).foldl DiffParser.processLine ⟨[], 0, none⟩) :=
    foldl_inv DiffParser.processLine countsInv
      (fun st line hst => processLine_countsInv st line hst)
      (DiffParser.splitNl s.data) ⟨[], 0, none⟩
      ⟨fun f hf => absurd hf (List.not_mem_nil f), fun f hf => by cases hf⟩
  have hmem : ∀ f ∈ DiffParser.parse_diff s,
      f.additions = fileHunkAdditions f ∧ f.deletions = fileHunkDeletions f := by
    intro f hf
    unfold DiffParser.parse_diff at hf
    rcases mem_flushCurrent hf with h1 | h1
    · exact hinv.1 f h1
    · exact hinv.2 f h1
  refine ⟨hmem, ?_⟩
  unfold DiffParser.get_total_changes
  have e1 : (DiffParser.parse_diff s).map (fun f => f.additions) =
      (DiffParser.parse_diff s).map fileHunkAdditions :=
    map_congr_mem _ _ _ (fun f hf => (hmem f hf).1)
  have e2 : (DiffParser.parse_diff s).map (fun f => f.deletions) =
      (DiffParser.parse_diff s).map fileHunkDeletions :=
    map_congr_mem _ _ _ (fun f hf => (hmem f hf).2)
  rw [foldl_add_map (fun f => f.additions), foldl_add_map (fun f => f.deletions), e1, e2]
  simp

/-- Witness for C1 at the concrete sample diff and its parsed file. -/
theorem claim_C1_witness :
    sampleFile.additions = fileHunkAdditions sampleFile ∧
      sampleFile.deletions = fileHunkDeletions sampleFile :=
  (claim_C1 sampleDiff).1 sampleFile (by decide)

/-- C2: parsing the concrete scenario diff yields exactly one `FileChange`
(`old_path = new_path = "x.py"`) with one hunk whose info is
`old_start 1, old_count 2, new_start 1, new_count 3`, whose lines are
context "context", deletion "old line", addition "new line", addition
"added line" in order, with 2 additions and 1 deletion. -/
theorem claim_C2 : DiffParser.parse_diff sampleDiff = [sampleFile] := by decide

/-- C3: `parse_diff` is a total function, so it returns a (possibly empty)
list for every input string, and on the empty string it returns the empty
list. -/
theorem claim_C3 :
    (∀ s : String, ∃ fs : List FileChange, DiffParser.parse_diff s = fs) ∧
      DiffParser.parse_diff "" = [] :=
  ⟨fun _ => ⟨_, rfl⟩, by decide⟩

/-- C10: a line inside a hunk whose first character is none of `+`, `-`,
space — including the empty line — and which is not a `diff --git` or `@@`
marker, leaves the parser state unchanged: nothing is appended to the current
hunk and no counter moves. -/
theorem claim_C10 (st : DiffParser.ParseState) (line : List Char)
    (hgit : DiffParser.startsDiffGit line = false)
    (hat : DiffParser.startsAtAt line = false)
    (hhead : ∀ c, line.head? = some c → c ≠ '+' ∧ c ≠ '-' ∧ c ≠ ' ') :
    DiffParser.processLine st line = st := by
  have hp : DiffParser.startsPlus3 line = false := by
    cases line with
    | nil => rfl
    | cons c cs => exact startsPlus3_eq_false cs (hhead c rfl).1
  have hm : DiffParser.startsMinus3 line = false := by
    cases line with
    | nil => rfl
    | cons c cs => exact startsMinus3_eq_false cs (hhead c rfl).2.1
  unfold DiffParser.processLine
  rw [hgit, hat, hp, hm]
  simp only [Bool.false_eq_true, if_false, Bool.or_self]
  cases hcur : st.current with
  | none => rfl
  | some f =>
    cases hch : f.changes.isEmpty with
    | true => simp [hch]
    | false =>
      simp only [hch, Bool.false_eq_true, if_false]
      cases line with
      | nil => rfl
      | cons c cs =>
        have hc := hhead c rfl
        split
        · next heq => injection heq with h1 _; exact absurd h1 hc.1
        · next heq => injection heq with h1 _; exact absurd h1 hc.2.1
        · next heq => injection heq with h1 _; exact absurd h1 hc.2.2
        · rfl

/-- Witness for C10: a line `x` inside a hunk, and the empty line, are both
discarded without any state change. -/
theorem claim_C10_witness :
    DiffParser.processLine ⟨[], 0, some ⟨"a.py", "b.py", [⟨none, []⟩], 0, 0⟩⟩ "x".data =
        ⟨[], 0, some ⟨"a.py", "b.py", [⟨none, []⟩], 0, 0⟩⟩ ∧
      DiffParser.processLine ⟨[], 0, some ⟨"a.py", "b.py", [⟨none, []⟩], 0, 0⟩⟩ [] =
        ⟨[], 0, some ⟨"a.py", "b.py", [⟨none, []⟩], 0, 0⟩⟩ :=
  ⟨claim_C10 _ _ (by decide) (by decide)
      (by intro c hc; simp at hc; subst hc; decide),
   claim_C10 _ _ rfl rfl (by intro c hc; simp at hc)⟩
theorem readDigits_append (ds rest : List Char) (hds : ∀ c ∈ ds, c.isDigit = true)
    (hrest : ∀ c, rest.head? = some c → c.isDigit = false) :
    DiffParser.readDigits (ds ++ rest) = (ds, rest) := by
  induction ds with
  | nil =>
    simp only [List.nil_append]
    cases rest with
    | nil => rfl
    | cons r rs =>
      have := hrest r rfl
      unfold DiffParser.readDigits
      simp [this]
  | cons d ds ih =>
    have hd : d.isDigit = true := hds d (List.mem_cons_self d ds)
    have ih2 := ih (fun c hc => hds c (List.mem_cons_of_mem d hc))
    unfold DiffParser.readDigits
    simp [hd, ih2]

theorem matchNumPair2_canonical (d : List Char) (o : Option (List Char)) (X : List Char)
    (hd : d ≠ []) (hdd : ∀ c ∈ d, c.isDigit = true)
    (ho : ∀ ds, o = some ds → ∀ c ∈ ds, c.isDigit = true)
    (hX : X.head? = some ' ') :
    DiffParser.matchNumPair2 (d ++ (countPart o ++ X)) =
      some (DiffParser.natOfDigits d, countValue o, X) := by
  have hXd : ∀ c, X.head? = some c → c.isDigit = false := by
    intro c hc
    rw [hX] at hc
    injection hc with hc
    subst hc
    rfl
  cases o with
  | none =>
    simp only [countPart, List.nil_append]
    have hr := readDigits_append d X hdd hXd
    unfold DiffParser.matchNumPair2
    rw [hr]
    simp [List.isEmpty_eq_true, hd]
    cases hx : X with
    | nil => rw [hx] at hX; simp at hX
    | cons x xs =>
      rw [hx] at hX
      injection hX with hX2
      subst hX2
      simp [countValue]
  | some ds =>
    simp only [countPart, List.cons_append]
    have hr := readDigits_append d (',' :: (ds ++ X)) hdd
      (by intro c hc; injection hc with hc; subst hc; rfl)
    have hr2 := readDigits_append ds X (ho ds rfl) hXd
    unfold DiffParser.matchNumPair2
    rw [hr]
    simp [List.isEmpty_eq_true, hd, hr2, countValue]

theorem matchHunkAt_canonical (d1 d3 : List Char) (o2 o4 : Option (List Char)) (rest : List Char)
    (h1 : d1 ≠ []) (h1d : ∀ c ∈ d1, c.isDigit = true)
    (h2 : ∀ ds, o2 = some ds → ∀ c ∈ ds, c.isDigit = true)
    (h3 : d3 ≠ []) (h3d : ∀ c ∈ d3, c.isDigit = true)
    (h4 : ∀ ds, o4 = some ds → ∀ c ∈ ds, c.isDigit = true) :
    DiffParser.matchHunkAt (hunkHeaderChars d1 o2 d3 o4 rest) =
      some ⟨DiffParser.natOfDigits d1, countValue o2, DiffParser.natOfDigits d3, countValue o4⟩ := by
  have e1 := matchNumPair2_canonical d1 o2
    (' ' :: '+' :: (d3 ++ (countPart o4 ++ (' ' :: '@' :: '@' :: rest)))) h1 h1d h2 rfl
  have e2 := matchNumPair2_canonical d3 o4 (' ' :: '@' :: '@' :: rest) h3 h3d h4 rfl
  unfold hunkHeaderChars DiffParser.matchHunkAt
  simp only [e1, e2]

theorem searchHunk_cons_some (c : Char) (cs : List Char) (i : HunkInfo)
    (h : DiffParser.matchHunkAt (c :: cs) = some i) :
    DiffParser.searchHunk (c :: cs) = some i := by
  unfold DiffParser.searchHunk
  rw [h]

theorem searchHunk_canonical (d1 d3 : List Char) (o2 o4 : Option (List Char)) (rest : List Char)
    (h1 : d1 ≠ []) (h1d : ∀ c ∈ d1, c.isDigit = true)
    (h2 : ∀ ds, o2 = some ds → ∀ c ∈ ds, c.isDigit = true)
    (h3 : d3 ≠ []) (h3d : ∀ c ∈ d3, c.isDigit = true)
    (h4 : ∀ ds, o4 = some ds → ∀ c ∈ ds, c.isDigit = true) :
    DiffParser.searchHunk (hunkHeaderChars d1 o2 d3 o4 rest) =
      some ⟨DiffParser.natOfDigits d1, countValue o2, DiffParser.natOfDigits d3, countValue o4⟩ :=
  searchHunk_cons_some _ _ _ (matchHunkAt_canonical d1 d3 o2 o4 rest h1 h1d h2 h3 h3d h4)

theorem searchHunk_none_of_noAt : ∀ l : List Char, (∀ c ∈ l, c ≠ '@') →
    DiffParser.searchHunk l = none
  | [], _ => rfl
  | c :: cs, h => by
    have hc : c ≠ '@' := h c (List.mem_cons_self c cs)
    have hm : DiffParser.matchHunkAt (c :: cs) = none := by
      unfold DiffParser.matchHunkAt
      split
      · next heq => injection heq with hx _; exact absurd hx hc
      · rfl
    unfold DiffParser.searchHunk
    rw [hm]
    exact searchHunk_none_of_noAt cs (fun x hx => h x (List.mem_cons_of_mem c hx))

theorem startsAtAt_shape (l : List Char) (h : DiffParser.startsAtAt l = true) :
    ∃ cs, l = '@' :: '@' :: cs := by
  unfold DiffParser.startsAtAt at h
  split at h
  · exact ⟨_, rfl⟩
  · cases h

theorem processLine_atat (cs : List Char) (st : DiffParser.ParseState) (f : FileChange)
    (hcur : st.current = some f) :
    DiffParser.processLine st ('@' :: '@' :: cs) =
      ⟨st.files, st.aliasCount,
        some { f with changes := f.changes ++ [⟨DiffParser.searchHunk ('@' :: '@' :: cs), []⟩] }⟩ := by
  unfold DiffParser.processLine
  rw [hcur]
  rfl

/-- C5: a hunk-header line of the shape `@@ -a,b +c,d @@` (either count
optionally omitted, arbitrary trailing text) parses to the record with the
four numeric fields, an omitted or empty count defaulting to 1; a line
containing no `@` yields the empty info record; and on a header line whose
parse fails, `parse_diff` records the hunk with the empty info record and
continues. -/
theorem claim_C5 :
    (∀ (d1 d3 : List Char) (o2 o4 : Option (List Char)) (rest : List Char),
        d1 ≠ [] → (∀ c ∈ d1, c.isDigit = true) →
        (∀ ds, o2 = some ds → ∀ c ∈ ds, c.isDigit = true) →
        d3 ≠ [] → (∀ c ∈ d3, c.isDigit = true) →
        (∀ ds, o4 = some ds → ∀ c ∈ ds, c.isDigit = true) →
        DiffParser._parse_hunk_header (String.mk (hunkHeaderChars d1 o2 d3 o4 rest)) =
          some ⟨DiffParser.natOfDigits d1, countValue o2,
                DiffParser.natOfDigits d3, countValue o4⟩) ∧
      (∀ line : String, (∀ c ∈ line.data, c ≠ '@') →
        DiffParser._parse_hunk_header line = none) ∧
      (∀ (line : List Char) (st : DiffParser.ParseState) (f : FileChange),
        DiffParser.startsAtAt line = true → st.current = some f →
        DiffParser.searchHunk line = none →
        DiffParser.processLine st line =
          ⟨st.files, st.aliasCount, some { f with changes := f.changes ++ [⟨none, []⟩] }⟩) := by
  refine ⟨?_, ?_, ?_⟩
  · intro d1 d3 o2 o4 rest h1 h1d h2 h3 h3d h4
    exact searchHunk_canonical d1 d3 o2 o4 rest h1 h1d h2 h3 h3d h4
  · intro line h
    exact searchHunk_none_of_noAt line.data h
  · intro line st f hat hcur hnone
    obtain ⟨cs, rfl⟩ := startsAtAt_shape line hat
    rw [processLine_atat cs st f hcur, hnone]

/-- Witness for C5: the header `@@ -1,2 +3 @@` parses to
`(1, 2, 3, 1)`; an at-sign-free line yields the empty record; a malformed
`@@` line is recorded as a hunk with empty info. -/
theorem claim_C5_witness :
    DiffParser._parse_hunk_header (String.mk (hunkHeaderChars ['1'] (some ['2']) ['3'] none [])) =
        some ⟨1, 2, 3, 1⟩ ∧
      DiffParser._parse_hunk_header "no header here" = none ∧
      DiffParser.processLine ⟨[], 0, some ⟨"a.py", "b.py", [], 0, 0⟩⟩ "@@ bad".data =
        ⟨[], 0, some ⟨"a.py", "b.py", [⟨none, []⟩], 0, 0⟩⟩ :=
  ⟨claim_C5.1 ['1'] ['3'] (some ['2']) none [] (by decide) (by decide)
      (by intro ds hds; injection hds with h; subst h; decide) (by decide) (by decide)
      (by intro ds hds; cases hds),
   claim_C5.2.1 "no header here" (by decide),
   claim_C5.2.2 "@@ bad".data ⟨[], 0, some ⟨"a.py", "b.py", [], 0, 0⟩⟩ ⟨"a.py", "b.py", [], 0, 0⟩
      (by decide) rfl (by decide)⟩

/-- C7: `filter_significant_changes` returns exactly the order-preserving
subsequence of files whose `additions + deletions` is at least the threshold
(an order-preserving sublist with that membership characterisation); a file
meeting the threshold exactly is kept, one a single change short is dropped;
the threshold defaults to 5. -/
theorem claim_C7 (files : List FileChange) (min_changes : Nat) :
    (DiffParser.filter_significant_changes files min_changes).Sublist files ∧
      (∀ f, f ∈ DiffParser.filter_significant_changes files min_changes ↔
        f ∈ files ∧ min_changes ≤ f.additions + f.deletions) ∧
      (∀ f : FileChange, f.additions + f.deletions = min_changes →
        DiffParser.filter_significant_changes [f] min_changes = [f]) ∧
      (∀ f : FileChange, f.additions + f.deletions + 1 = min_changes →
        DiffParser.filter_significant_changes [f] min_changes = []) ∧
      DiffParser.filter_significant_changes files =
        DiffParser.filter_significant_changes files 5 := by
  refine ⟨List.filter_sublist _, ?_, ?_, ?_, rfl⟩
  · intro f
    unfold DiffParser.filter_significant_changes
    simp [List.mem_filter]
  · intro f hf
    unfold DiffParser.filter_significant_changes
    simp [List.filter_cons, hf]
  · intro f hf
    unfold DiffParser.filter_significant_changes
    simp [List.filter_cons]
    omega

/-- Witness for C7 at threshold 5: a file with 3+2 changes is kept, one with
2+2 is dropped. -/
theorem claim_C7_witness :
    DiffParser.filter_significant_changes [⟨"a.py", "b.py", [], 3, 2⟩] 5 =
        [⟨"a.py", "b.py", [], 3, 2⟩] ∧
      DiffParser.filter_significant_changes [⟨"a.py", "b.py", [], 2, 2⟩] 5 = [] :=
  ⟨(claim_C7 [] 5).2.2.1 ⟨"a.py", "b.py", [], 3, 2⟩ (by decide),
   (claim_C7 [] 5).2.2.2.1 ⟨"a.py", "b.py", [], 2, 2⟩ (by decide)⟩
theorem mem_insertIfAbsent (l : List String) (s e : String) :
    e ∈ DiffParser.insertIfAbsent l s ↔ e ∈ l ∨ e = s := by
  unfold DiffParser.insertIfAbsent
  split
  · next hmem =>
    constructor
    · exact Or.inl
    · rintro (h | rfl)
      · exact h
      · exact hmem
  · simp

theorem nodup_insertIfAbsent (l : List String) (s : String) (h : l.Nodup) :
    (DiffParser.insertIfAbsent l s).Nodup := by
  unfold DiffParser.insertIfAbsent
  split
  · exact h
  · next hmem => simp [List.nodup_append, h, hmem]

theorem ext_foldl_mem (files : List FileChange) :
    ∀ (acc : List String) (e : String),
      e ∈ files.foldl
            (fun exts f =>
              if '.' ∈ (DiffParser.selectedPath f).data then
                DiffParser.insertIfAbsent exts
                  (String.mk ((DiffParser.afterLastDot (DiffParser.selectedPath f).data).map Char.toLower))
              else exts)
            acc ↔
        e ∈ acc ∨ ∃ f ∈ files, '.' ∈ (DiffParser.selectedPath f).data ∧
          e = String.mk ((DiffParser.afterLastDot (DiffParser.selectedPath f).data).map Char.toLower) := by
  induction files with
  | nil => intro acc e; simp
  | cons f fs ih =>
    intro acc e
    rw [List.foldl_cons]
    by_cases hdot : '.' ∈ (DiffParser.selectedPath f).data
    · rw [if_pos hdot, ih, mem_insertIfAbsent]
      constructor
      · rintro ((h | rfl) | ⟨g, hg, hgd, rfl⟩)
        · exact Or.inl h
        · exact Or.inr ⟨f, List.mem_cons_self f fs, hdot, rfl⟩
        · exact Or.inr ⟨g, List.mem_cons_of_mem f hg, hgd, rfl⟩
      · rintro (h | ⟨g, hg, hgd, rfl⟩)
        · exact Or.inl (Or.inl h)
        · rcases List.mem_cons.1 hg with rfl | hg2
          · exact Or.inl (Or.inr rfl)
          · exact Or.inr ⟨g, hg2, hgd, rfl⟩
    · rw [if_neg hdot, ih]
      constructor
      · rintro (h | ⟨g, hg, hgd, rfl⟩)
        · exact Or.inl h
        · exact Or.inr ⟨g, List.mem_cons_of_mem f hg, hgd, rfl⟩
      · rintro (h | ⟨g, hg, hgd, rfl⟩)
        · exact Or.inl h
        · rcases List.mem_cons.1 hg with rfl | hg2
          · exact absurd hgd hdot
          · exact Or.inr ⟨g, hg2, hgd, rfl⟩

theorem keys_setKey_map (m : List (String × List DiffParser.HunkContext)) (k : String)
    (v : List DiffParser.HunkContext) (hany : m.any (fun p => p.1 == k) = true) :
    (DiffParser.setKey m k v).map Prod.fst = m.map Prod.fst := by
  unfold DiffParser.setKey
  rw [if_pos hany, List.map_map]
  apply map_congr_mem
  intro p _
  by_cases hp : p.1 == k
  · simp only [Function.comp_apply, if_pos hp]
    exact (beq_iff_eq.1 hp).symm
  · simp only [Function.comp_apply, if_neg hp]

theorem mem_keys_setKey (m : List (String × List DiffParser.HunkContext)) (k : String)
    (v : List DiffParser.HunkContext) (e : String) :
    e ∈ (DiffParser.setKey m k v).map Prod.fst ↔ e ∈ m.map Prod.fst ∨ e = k := by
  by_cases hany : m.any (fun p => p.1 == k) = true
  · rw [keys_setKey_map m k v hany]
    constructor
    · exact Or.inl
    · rintro (h | rfl)
      · exact h
      · rcases List.any_eq_true.1 hany with ⟨p, hp, hpk⟩
        have : p.1 = e := beq_iff_eq.1 hpk
        exact this ▸ List.mem_map_of_mem Prod.fst hp
  · unfold DiffParser.setKey
    rw [if_neg hany]
    simp

theorem nodup_keys_setKey (m : List (String × List DiffParser.HunkContext)) (k : String)
    (v : List DiffParser.HunkContext) (h : (m.map Prod.fst).Nodup) :
    ((DiffParser.setKey m k v).map Prod.fst).Nodup := by
  by_cases hany : m.any (fun p => p.1 == k) = true
  · rw [keys_setKey_map m k v hany]
    exact h
  · unfold DiffParser.setKey
    rw [if_neg hany]
    have hnk : k ∉ m.map Prod.fst := by
      intro hk
      rcases List.mem_map.1 hk with ⟨p, hp, hpk⟩
      exact hany (List.any_eq_true.2 ⟨p, hp, beq_iff_eq.2 hpk⟩)
    simp [List.nodup_append, h, hnk]

theorem keys_extract_foldl (context_lines : Nat) (files : List FileChange) :
    ∀ (acc : List (String × List DiffParser.HunkContext)) (k : String),
      k ∈ (files.foldl
            (fun cd f => DiffParser.setKey cd (DiffParser.selectedPath f)
              (DiffParser.file_hunk_contexts f context_lines)) acc).map Prod.fst ↔
        k ∈ acc.map Prod.fst ∨ ∃ f ∈ files, DiffParser.selectedPath f = k := by
  induction files with
  | nil => intro acc k; simp
  | cons f fs ih =>
    intro acc k
    rw [List.foldl_cons, ih, mem_keys_setKey]
    constructor
    · rintro ((h | rfl) | ⟨g, hg, rfl⟩)
      · exact Or.inl h
      · exact Or.inr ⟨f, List.mem_cons_self f fs, rfl⟩
      · exact Or.inr ⟨g, List.mem_cons_of_mem f hg, rfl⟩
    · rintro (h | ⟨g, hg, rfl⟩)
      · exact Or.inl (Or.inl h)
      · rcases List.mem_cons.1 hg with rfl | hg2
        · exact Or.inl (Or.inr rfl)
        · exact Or.inr ⟨g, hg2, rfl⟩

/-- C6 counterexample: the marker `diff --git a/a.py b/` produces a file with
`old_path = "a.py"` and empty `new_path`; the claim predicts the selection
falls back to `old_path`, giving extension `py` and map key `a.py`, but the
code keys on `new_path` unconditionally (the `dict.get` fallback never fires
because parsed dicts always carry the `new_path` key), so the extension set
is empty and the context map is keyed by the empty string. -/
theorem claim_C6_counterexample :
    DiffParser.parse_diff emptyNewPathDiff =
        [⟨"a.py", "", [⟨some ⟨1, 1, 1, 1⟩, [⟨LineType.addition, "x"⟩]⟩], 1, 0⟩] ∧
      DiffParser.get_file_extensions (DiffParser.parse_diff emptyNewPathDiff) = [] ∧
      ¬ "py" ∈ DiffParser.get_file_extensions (DiffParser.parse_diff emptyNewPathDiff) ∧
      (DiffParser.extract_context_lines (DiffParser.parse_diff emptyNewPathDiff) 3).map
          Prod.fst = [""] := by
  decide

/-- C6 (amended): `get_file_extensions` and `extract_context_lines` select
`new_path` unconditionally (the `old_path` fallback of `dict.get` is dead
because every parsed dict carries the `new_path` key): the extension list is
the duplicate-free collection of lower-cased after-last-dot suffixes of the
files' `new_path`s, dot-free `new_path`s contributing nothing, and the
context mapping is keyed by exactly the set of `new_path`s. -/
theorem claim_C6 (files : List FileChange) (context_lines : Nat) :
    (∀ e, e ∈ DiffParser.get_file_extensions files ↔
        ∃ f ∈ files, '.' ∈ f.new_path.data ∧
          e = String.mk ((DiffParser.afterLastDot f.new_path.data).map Char.toLower)) ∧
      (DiffParser.get_file_extensions files).Nodup ∧
      (∀ k, k ∈ (DiffParser.extract_context_lines files context_lines).map Prod.fst ↔
        ∃ f ∈ files, f.new_path = k) ∧
      ((DiffParser.extract_context_lines files context_lines).map Prod.fst).Nodup := by
  refine ⟨?_, ?_, ?_, ?_⟩
  · intro e
    unfold DiffParser.get_file_extensions
    rw [ext_foldl_mem]
    simp [DiffParser.selectedPath]
  · unfold DiffParser.get_file_extensions
    exact foldl_inv
      (fun exts f =>
        if '.' ∈ (DiffParser.selectedPath f).data then
          DiffParser.insertIfAbsent exts
            (String.mk ((DiffParser.afterLastDot (DiffParser.selectedPath f).data).map Char.toLower))
        else exts)
      List.Nodup
      (fun acc f hacc => by
        beta_reduce
        split
        · exact nodup_insertIfAbsent _ _ hacc
        · exact hacc)
      files [] List.nodup_nil
  · intro k
    unfold DiffParser.extract_context_lines
    rw [keys_extract_foldl]
    simp [DiffParser.selectedPath]
  · unfold DiffParser.extract_context_lines
    exact foldl_inv
      (fun cd f => DiffParser.setKey cd (DiffParser.selectedPath f)
        (DiffParser.file_hunk_contexts f context_lines))
      (fun cd => (cd.map Prod.fst).Nodup)
      (fun acc f hacc => nodup_keys_setKey _ _ _ hacc)
      files [] (by simp)

theorem claimWindow_eq (lines : List DiffLine) (context_lines i : Nat) :
    claimWindow lines context_lines i = DiffParser.changeWindow lines context_lines i := by
  simp [claimWindow, DiffParser.changeWindow, Nat.zero_max]

theorem foldl_append_filter {α β : Type _} (p : α → Prop) [DecidablePred p] (g : α → List β) :
    ∀ (l : List α) (acc : List β),
      l.foldl (fun a x => if p x then a ++ g x else a) acc =
        acc ++ ((l.filter (fun x => decide (p x))).map g).flatten
  | [], acc => by simp
  | x :: l, acc => by
    by_cases h : p x
    · rw [List.foldl_cons, if_pos h, foldl_append_filter p g l (acc ++ g x)]
      simp [h, List.append_assoc]
    · rw [List.foldl_cons, if_neg h, foldl_append_filter p g l acc]
      simp [h]

theorem foldl_append_unless {α β : Type _} (p : α → Prop) [DecidablePred p] (g : α → List β) :
    ∀ (l : List α) (acc : List β),
      l.foldl (fun a x => if p x then a else a ++ g x) acc =
        acc ++ ((l.filter (fun x => decide (¬ p x))).map g).flatten
  | [], acc => by simp
  | x :: l, acc => by
    by_cases h : p x
    · rw [List.foldl_cons, if_pos h, foldl_append_unless p g l acc]
      simp [h]
    · rw [List.foldl_cons, if_neg h, foldl_append_unless p g l (acc ++ g x)]
      simp [h, List.append_assoc]

theorem relevant_for_hunk_eq (lines : List DiffLine) (context_lines : Nat) :
    DiffParser.relevant_for_hunk lines context_lines = claimRelevant lines context_lines := by
  unfold DiffParser.relevant_for_hunk claimRelevant
  rw [foldl_append_filter
    (fun p : Nat × DiffLine => p.2.type = LineType.addition ∨ p.2.type = LineType.deletion)
    (fun p => DiffParser.changeWindow lines context_lines p.1) lines.enum []]
  simp only [List.nil_append]
  congr 1
  apply map_congr_mem
  intro p _
  rw [claimWindow_eq]

theorem flatten_map_singleton {α β : Type _} (e : α → β) :
    ∀ l : List α, (l.map (fun x => [e x])).flatten = l.map e
  | [] => rfl
  | x :: l => by simp [flatten_map_singleton e l]

theorem file_hunk_contexts_eq (f : FileChange) (context_lines : Nat) :
    DiffParser.file_hunk_contexts f context_lines =
      (f.changes.filter
          (fun h => decide (claimRelevant h.lines context_lines ≠ []))).map
        (fun h => ⟨h.info, claimRelevant h.lines context_lines⟩) := by
  unfold DiffParser.file_hunk_contexts
  dsimp only
  rw [foldl_append_unless
    (fun h : Hunk => (DiffParser.relevant_for_hunk h.lines context_lines).isEmpty = true)
    (fun h : Hunk =>
      [(⟨h.info, DiffParser.relevant_for_hunk h.lines context_lines⟩ : DiffParser.HunkContext)])
    f.changes []]
  rw [List.nil_append, flatten_map_singleton]
  rw [List.filter_congr (fun h _ => ?_)]
  · apply map_congr_mem
    intro h _
    rw [relevant_for_hunk_eq]
  · rw [relevant_for_hunk_eq]
    simp [List.isEmpty_iff]

/-- C8: for every file list and context width, `extract_context_lines` forms
each hunk's relevant lines by appending, for each addition/deletion line at
index i, the window `[max(0, i-contextLines), min(len, i+contextLines+1))` of
that hunk's lines (overlapping windows produce duplicates, nothing is
deduplicated), and a hunk appears in a file's output exactly when that
concatenation is non-empty. -/
theorem claim_C8 (files : List FileChange) (context_lines : Nat) :
    (∀ lines, DiffParser.relevant_for_hunk lines context_lines =
        claimRelevant lines context_lines) ∧
      (∀ f : FileChange, DiffParser.file_hunk_contexts f context_lines =
        (f.changes.filter
            (fun h => decide (claimRelevant h.lines context_lines ≠ []))).map
          (fun h => ⟨h.info, claimRelevant h.lines context_lines⟩)) ∧
      DiffParser.extract_context_lines files context_lines =
        files.foldl
          (fun cd f => DiffParser.setKey cd f.new_path
            ((f.changes.filter
                (fun h => decide (claimRelevant h.lines context_lines ≠ []))).map
              (fun h => ⟨h.info, claimRelevant h.lines context_lines⟩))) [] := by
  refine ⟨fun lines => relevant_for_hunk_eq lines context_lines,
    fun f => file_hunk_contexts_eq f context_lines, ?_⟩
  unfold DiffParser.extract_context_lines
  congr 1
  funext cd f
  rw [file_hunk_contexts_eq]
  rfl

theorem isPrefixOf_self_append : ∀ (n post : List Char), n.isPrefixOf (n ++ post) = true
  | [], post => by cases post <;> rfl
  | c :: n, post => by simp [List.isPrefixOf, isPrefixOf_self_append n post]

theorem hasSub_of_isPrefixOf (needle : List Char) :
    ∀ hay : List Char, needle.isPrefixOf hay = true → hasSub needle hay = true
  | [], h => h
  | c :: cs, h => by simp [hasSub, h]

theorem hasSub_append_left (needle : List Char) :
    ∀ (pre hay : List Char), hasSub needle hay = true → hasSub needle (pre ++ hay) = true
  | [], hay, h => h
  | c :: pre, hay, h => by
    have ih := hasSub_append_left needle pre hay h
    show (needle.isPrefixOf ((c :: pre) ++ hay) || hasSub needle (pre ++ hay)) = true
    rw [ih]
    simp

theorem data_append (a b : String) : (a ++ b).data = a.data ++ b.data := rfl

theorem crp_desc_placeholder (diff title : String) (extOpt : Option (List String)) :
    hasSub "No description provided".data
      (PromptFormatter.create_code_review_prompt diff title "" extOpt).data = true := by
  unfold PromptFormatter.create_code_review_prompt
  rw [if_pos rfl]
  simp only [data_append, List.append_assoc]
  apply hasSub_append_left
  apply hasSub_append_left
  apply hasSub_append_left
  apply hasSub_of_isPrefixOf
  exact isPrefixOf_self_append _ _

theorem crp_mixed_of_empty (diff title desc : String) (extOpt : Option (List String))
    (h : PromptFormatter.effective_extensions diff extOpt = []) :
    hasSub "Mixed".data (PromptFormatter.create_code_review_prompt diff title desc extOpt).data = true := by
  unfold PromptFormatter.create_code_review_prompt
  simp only [h, List.isEmpty_nil, if_pos]
  simp only [data_append, List.append_assoc]
  apply hasSub_append_left
  apply hasSub_append_left
  apply hasSub_append_left
  apply hasSub_append_left
  apply hasSub_append_left
  apply hasSub_append_left
  apply hasSub_append_left
  apply hasSub_append_left
  apply hasSub_append_left
  apply hasSub_append_left
  apply hasSub_append_left
  apply hasSub_of_isPrefixOf
  exact isPrefixOf_self_append _ _


/-- C9: `create_code_review_prompt` renders the literal placeholder
"No description provided" whenever the description is empty, and renders
"Mixed" whenever the effective extension list (the caller-supplied one, or
the list derived from the diff when the caller supplies none or an empty
list) is empty; in particular the prompt for an empty diff with title "T"
and empty description contains "**Files Modified:** 0",
"**Total Additions:** 0", "Mixed" and "No description provided" (the
statistics fields render inside the template's markdown bold markers). -/
theorem claim_C9 :
    (∀ (diff title : String) (extOpt : Option (List String)),
        hasSub "No description provided".data
          (PromptFormatter.create_code_review_prompt diff title "" extOpt).data = true) ∧
      (∀ (diff title desc : String) (extOpt : Option (List String)),
        PromptFormatter.effective_extensions diff extOpt = [] →
        hasSub "Mixed".data
          (PromptFormatter.create_code_review_prompt diff title desc extOpt).data = true) ∧
      (hasSub "**Files Modified:** 0".data
          (PromptFormatter.create_code_review_prompt "" "T" "" none).data = true ∧
        hasSub "**Total Additions:** 0".data
          (PromptFormatter.create_code_review_prompt "" "T" "" none).data = true ∧
        hasSub "Mixed".data
          (PromptFormatter.create_code_review_prompt "" "T" "" none).data = true ∧
        hasSub "No description provided".data
          (PromptFormatter.create_code_review_prompt "" "T" "" none).data = true) := by
  refine ⟨crp_desc_placeholder, crp_mixed_of_empty, ?_, ?_, ?_, ?_⟩ <;> decide

/-- Witness for C9: the Mixed clause applied at the empty diff. -/
theorem claim_C9_witness :
    hasSub "Mixed".data
      (PromptFormatter.create_code_review_prompt "" "T" "" none).data = true :=
  claim_C9.2.1 "" "T" "" none (by decide)

theorem foldl_sim {α σ τ : Type _} (g : σ → α → σ) (g2 : τ → α → τ)
    (R : σ → τ → Prop) (Q : α → Prop)
    (hstep : ∀ s t a, Q a → R s t → R (g s a) (g2 t a)) :
    ∀ (l : List α) (s : σ) (t : τ), (∀ a ∈ l, Q a) → R s t →
      R (l.foldl g s) (l.foldl g2 t)
  | [], _, _, _, hr => hr
  | a :: l, s, t, hq, hr =>
    foldl_sim g g2 R Q hstep l (g s a) (g2 t a)
      (fun b hb => hq b (List.mem_cons_of_mem a hb))
      (hstep s t a (hq a (List.mem_cons_self a l)) hr)

theorem step_sim (st : DiffParser.ParseState) (st2 : List FileChange × Option FileChange)
    (line : List Char)
    (hline : DiffParser.startsDiffGit line = true →
      (DiffParser.matchGitMarker line).isSome = true)
    (h1 : st.files = st2.1) (h2 : st.current = st2.2) (h0 : st.aliasCount = 0) :
    (DiffParser.processLine st line).files = (processLineOnce st2 line).1 ∧
      (DiffParser.processLine st line).current = (processLineOnce st2 line).2 ∧
      (DiffParser.processLine st line).aliasCount = 0 := by
  unfold DiffParser.processLine processLineOnce
  cases hgit : DiffParser.startsDiffGit line with
  | true =>
    rcases Option.isSome_iff_exists.1 (hline hgit) with ⟨⟨g1, g2⟩, heq⟩
    rw [heq]
    simp only [if_pos rfl]
    refine ⟨?_, rfl, rfl⟩
    unfold DiffParser.flushCurrent
    rw [h0, h2, h1]
    cases st2.2 with
    | none => simp
    | some f => simp
  | false =>
    simp only [Bool.false_eq_true, if_false]
    cases hpm : (DiffParser.startsPlus3 line || DiffParser.startsMinus3 line) with
    | true => exact ⟨h1, h2, h0⟩
    | false =>
      simp only [Bool.false_eq_true, if_false]
      cases hat : DiffParser.startsAtAt line with
      | true =>
        rw [h2]
        cases hx : st2.2 with
        | none =>
          refine ⟨h1, ?_, h0⟩
          first | rfl | exact h2 | exact h2.trans hx
        | some f =>
          refine ⟨h1, ?_, h0⟩
          first | rfl | exact h2 | exact h2.trans hx
      | false =>
        simp only [Bool.false_eq_true, if_false]
        rw [h2]
        cases hx : st2.2 with
        | none =>
          refine ⟨h1, ?_, h0⟩
          first | rfl | exact h2 | exact h2.trans hx
        | some f =>
          cases hch : f.changes.isEmpty with
          | true =>
            simp only [hch, if_pos]
            refine ⟨h1, ?_, h0⟩
            first | rfl | exact h2 | exact h2.trans hx
          | false =>
            simp only [hch, Bool.false_eq_true, if_false]
            split
            all_goals refine ⟨h1, ?_, h0⟩
            all_goals first | rfl | exact h2 | exact h2.trans hx


/-- C4 counterexample: on a diff whose third line is the malformed marker
`diff --git bad`, the accumulator is appended at that line yet remains
current, so the later `+x` line still mutates it and it is appended a second
time at end of input: the result holds two copies of the same accumulator,
both containing the addition that arrived after the first append — the claim
predicts a single, frozen file with no lines and zero counters. -/
theorem claim_C4_counterexample :
    DiffParser.parse_diff aliasingDiff =
        [⟨"a.py", "b.py", [⟨some ⟨1, 1, 1, 1⟩, [⟨LineType.addition, "x"⟩]⟩], 1, 0⟩,
         ⟨"a.py", "b.py", [⟨some ⟨1, 1, 1, 1⟩, [⟨LineType.addition, "x"⟩]⟩], 1, 0⟩] ∧
      DiffParser.parse_diff aliasingDiff ≠
        [⟨"a.py", "b.py", [⟨some ⟨1, 1, 1, 1⟩, []⟩], 0, 0⟩] := by decide

theorem flush_once_eq (l : List FileChange) (o : Option FileChange) :
    (l ++ (match o with | some f => List.replicate (0 + 1) f | none => [])) =
      (match o with | some f => l ++ [f] | none => l) := by
  cases o <;> simp

/-- C4 (amended): when every line beginning with `diff --git` matches the
two-path form, each accumulator is appended exactly once — at the next file
marker or at end of input — and is immutable once appended: `parse_diff`
coincides with the single-append parser `parse_diff_once`, and the alias
counter of the final parser state is 0 (no early append ever happened).
When a malformed marker occurs, the accumulator is instead appended at that
line, stays current, can be mutated further, and is appended again at the
next flush. -/
theorem claim_C4 (s : String)
    (h : ∀ line ∈ DiffParser.splitNl s.data, DiffParser.startsDiffGit line = true →
      (DiffParser.matchGitMarker line).isSome = true) :
    DiffParser.parse_diff s = parse_diff_once s ∧
      ((DiffParser.splitNl s.data).foldl DiffParser.processLine ⟨[], 0, none⟩).aliasCount = 0 := by
  have hr := foldl_sim DiffParser.processLine processLineOnce
    (fun st st2 => st.files = st2.1 ∧ st.current = st2.2 ∧ st.aliasCount = 0)
    (fun line => DiffParser.startsDiffGit line = true →
      (DiffParser.matchGitMarker line).isSome = true)
    (fun st st2 line hq hrel => step_sim st st2 line hq hrel.1 hrel.2.1 hrel.2.2)
    (DiffParser.splitNl s.data) ⟨[], 0, none⟩ ([], none) h ⟨rfl, rfl, rfl⟩
  obtain ⟨e1, e2, e3⟩ := hr
  refine ⟨?_, e3⟩
  unfold DiffParser.parse_diff parse_diff_once DiffParser.flushCurrent
  rw [e1, e2, e3]
  exact flush_once_eq _ _

/-- Witness for C4 on the sample diff, whose marker lines are well-formed. -/
theorem claim_C4_witness :
    DiffParser.parse_diff sampleDiff = parse_diff_once sampleDiff :=
  (claim_C4 sampleDiff (by decide)).1
